import Mathlib

/-!
Verification of the update-builder semantics generated by the `mongo_derive`
procedural macros (`src/src/lib.rs`).

The crate's `MongoOperations` derive macro reads per-field `#[mongo_ops(...)]`
markers and synthesizes, for an annotated struct, a builder type with
  * one `Option` storage slot per eligible (field, operation) pair,
  * chainable `set_<field>` / `push_<field>` / `pull_<field>` methods,
  * a `path_updates` table for direct dotted-path writes (`set_field`),
  * a `build` method assembling the `$set` / `$push` / `$pull` buckets.
The `mongo_nested_fields` attribute macro adds, per declared nested field,
a `with_<field>(configurator)` delegation method and a direct-path method
`<field>(nested_path, value)`.

We embed the semantics of that generated code.  A BSON document
(`bson::Document`) is an insertion-ordered key-value list where inserting an
existing key replaces its value in place; a runtime value is modelled by the
outcome of `bson::to_bson` on it (either a BSON value or a serialization
error); the struct shape is a list of field descriptors (name, parsed
operation list, whether the declared type is `Vec<_>`).  The per-field
generated methods are modelled as functions taking the field name, guarded by
the same eligibility conditions under which the macro emits the method at all.
-/

set_option maxRecDepth 4000

namespace MongoDerive

/-- Neutral BSON value representation (`bson::Bson`), restricted to the
constructors the builder semantics can produce or store. -/
inductive Bson where
  | str : String → Bson
  | int : Int → Bson
  | boolean : Bool → Bson
  | arr : List Bson → Bson
  | document : List (String × Bson) → Bson

/-- A BSON document (`bson::Document`): an insertion-ordered list of
key-value pairs with unique keys maintained by `docInsert`. -/
abbrev Doc := List (String × Bson)

/-- Embedding of `bson::Document::insert`: if the key is present its value is
replaced in place (the entry keeps its position); otherwise the pair is
appended at the end. -/
def docInsert (d : Doc) (k : String) (v : Bson) : Doc :=
  match d with
  | [] => [(k, v)]
  | (k2, v2) :: rest => if k2 = k then (k, v) :: rest else (k2, v2) :: docInsert rest k v

/-- Embedding of `bson::Document::get`: the value stored under a key, if any. -/
def docGet (d : Doc) (k : String) : Option Bson :=
  match d with
  | [] => none
  | (k2, v2) :: rest => if k2 = k then some v2 else docGet rest k

/-- The keys of a document, in order. -/
def docKeys (d : Doc) : List String :=
  d.map Prod.fst

/-- Inserting every pair of the second document into the first, in order
(the `for (path, value) in &self.path_updates` loop of the generated
`build`, and the nested-`$set` copying loops). -/
def docInsertAll (acc : Doc) : Doc → Doc
  | [] => acc
  | (k, v) :: rest => docInsertAll (docInsert acc k v) rest

/-- A runtime value queued in a builder slot.  The builder never inspects
values except to serialize them with `bson::to_bson`, so a value is modelled
by its serialization outcome: `good b` serializes to the BSON value `b`,
`bad e` fails with error `e`. -/
inductive Value where
  | good : Bson → Value
  | bad : String → Value

/-- Embedding of `bson::to_bson` on a queued value. -/
def to_bson : Value → Except String Bson
  | .good b => .ok b
  | .bad e => .error e

/-- A field of the annotated struct: its name, the operation list parsed from
`#[mongo_ops(...)]` (empty when the attribute is absent), and whether the
declared type is `Vec<_>` (the outcome of `get_vec_inner_type`). -/
structure FieldDesc where
  name : String
  ops : List String
  isVec : Bool
deriving DecidableEq

/-- The field carries `none` in its operation list: the derive macro skips it
entirely (`if ops.contains(&"none".to_string()) { continue; }`). -/
def hasNone (d : FieldDesc) : Bool :=
  d.ops.contains "none"

/-- A `push_<field>` slot and method are generated: the field is not skipped
by `none`, requests `push`, and is `Vec`-shaped. -/
def hasPush (d : FieldDesc) : Bool :=
  !hasNone d && d.ops.contains "push" && d.isVec

/-- A `pull_<field>` slot and method are generated: the field is not skipped
by `none`, requests `pull`, and is `Vec`-shaped. -/
def hasPull (d : FieldDesc) : Bool :=
  !hasNone d && d.ops.contains "pull" && d.isVec

/-- A `set_<field>` slot and method are generated: the field is not skipped
by `none` and either requests `set` or has an empty operation list
(`ops.contains(&"set".to_string()) || ops.is_empty()`). -/
def hasSet (d : FieldDesc) : Bool :=
  !hasNone d && (d.ops.contains "set" || d.ops.isEmpty)

/-- The generated builder state: the populated `Option` storage slots for the
three operation kinds (an association list standing for the record of
per-field `Option` fields, absence of a key meaning `None`), plus the
`path_updates` table (`HashMap<String, bson::Bson>`, already-serialized
values keyed by dotted path). -/
structure Builder where
  setSlots : List (String × Value)
  pushSlots : List (String × Value)
  pullSlots : List (String × Value)
  path_updates : Doc

/-- Embedding of `update_builder()`: the zero-value builder, every slot
`None` and the path-update table empty. -/
def update_builder : Builder :=
  Builder.mk [] [] [] []

/-- Setting a slot to `Some value`: replace the binding if present, append
otherwise. -/
def slotInsert (l : List (String × Value)) (k : String) (v : Value) :
    List (String × Value) :=
  match l with
  | [] => [(k, v)]
  | (k2, v2) :: rest => if k2 = k then (k, v) :: rest else (k2, v2) :: slotInsert rest k v

/-- Reading a slot: `Some value` if populated, `None` otherwise. -/
def slotGet (l : List (String × Value)) (k : String) : Option Value :=
  match l with
  | [] => none
  | (k2, v2) :: rest => if k2 = k then some v2 else slotGet rest k

/-- A `set_<field>` method exists on the builder generated for `fields`. -/
def setEligible (fields : List FieldDesc) (f : String) : Bool :=
  fields.any (fun d => d.name == f && hasSet d)

/-- A `push_<field>` method exists on the builder generated for `fields`. -/
def pushEligible (fields : List FieldDesc) (f : String) : Bool :=
  fields.any (fun d => d.name == f && hasPush d)

/-- A `pull_<field>` method exists on the builder generated for `fields`. -/
def pullEligible (fields : List FieldDesc) (f : String) : Bool :=
  fields.any (fun d => d.name == f && hasPull d)

/-- Embedding of the generated `set_<field>(value)` method: store the value in
the field's set slot and return the builder.  Calling it for a field without
a generated method is impossible in the source (the method does not exist),
modelled here as the identity. -/
def setMethod (fields : List FieldDesc) (f : String) (v : Value) (b : Builder) : Builder :=
  if setEligible fields f then
    Builder.mk (slotInsert b.setSlots f v) b.pushSlots b.pullSlots b.path_updates
  else b

/-- Embedding of the generated `push_<field>(value)` method: store the element
in the field's push slot and return the builder. -/
def pushMethod (fields : List FieldDesc) (f : String) (v : Value) (b : Builder) : Builder :=
  if pushEligible fields f then
    Builder.mk b.setSlots (slotInsert b.pushSlots f v) b.pullSlots b.path_updates
  else b

/-- Embedding of the generated `pull_<field>(value)` method: store the element
in the field's pull slot and return the builder. -/
def pullMethod (fields : List FieldDesc) (f : String) (v : Value) (b : Builder) : Builder :=
  if pullEligible fields f then
    Builder.mk b.setSlots b.pushSlots (slotInsert b.pullSlots f v) b.path_updates
  else b

/-- Embedding of the generic `set_field(field_path, value)` method: serialize
the value, insert it into `path_updates` under the given path, and return the
builder; a serialization failure is returned to the caller. -/
def set_field (b : Builder) (field_path : String) (v : Value) : Except String Builder :=
  match to_bson v with
  | .ok bv => .ok (Builder.mk b.setSlots b.pushSlots b.pullSlots
      (docInsert b.path_updates field_path bv))
  | .error e => .error e

/-- The body of one conversion fragment with a populated slot: serialize the
held value with `bson::to_bson` (propagating failure via `?`) and insert the
wrapped result into the bucket document under the plain field name. -/
def serializeInto (acc : Doc) (k : String) (wrap : Bson → Bson) (v : Value) :
    Except String Doc :=
  match to_bson v with
  | .ok bv => .ok (docInsert acc k (wrap bv))
  | .error e => .error e

/-- One per-field conversion fragment of the generated `build`: if the field
is eligible for the operation and its slot is populated, serialize and insert
its held value (`if let Some(value) = &self.slot { ... }`). -/
def convStep (slots : List (String × Value)) (wrap : Bson → Bson)
    (elig : FieldDesc → Bool) (acc : Doc) (d : FieldDesc) : Except String Doc :=
  if elig d then
    match slotGet slots d.name with
    | some v => serializeInto acc d.name wrap v
    | none => .ok acc
  else .ok acc

/-- Running the conversion fragments of all fields in declaration order,
stopping at the first serialization failure. -/
def foldConv (step : Doc → FieldDesc → Except String Doc) :
    Doc → List FieldDesc → Except String Doc
  | acc, [] => .ok acc
  | acc, d :: rest =>
    match step acc d with
    | .ok acc2 => foldConv step acc2 rest
    | .error e => .error e

/-- The `$push` operator sub-document wrapping one serialized element:
`doc! { "$each": [value] }`. -/
def pushWrap (bv : Bson) : Bson :=
  Bson.document [("$each", Bson.arr [bv])]

/-- The `$pull` operator sub-document wrapping one serialized element:
`doc! { "$in": [value] }`. -/
def pullWrap (bv : Bson) : Bson :=
  Bson.document [("$in", Bson.arr [bv])]

/-- The named-field part of the `$set` bucket: the `set_conversions`
fragments in field-declaration order. -/
def buildSetNamed (fields : List FieldDesc) (b : Builder) : Except String Doc :=
  foldConv (convStep b.setSlots (fun bv => bv) hasSet) [] fields

/-- The full `$set` bucket: the named-field fragments first, then every
`path_updates` entry inserted afterwards (the final `set_conversions`
fragment of the derive macro). -/
def buildSetDoc (fields : List FieldDesc) (b : Builder) : Except String Doc :=
  match buildSetNamed fields b with
  | .ok named => .ok (docInsertAll named b.path_updates)
  | .error e => .error e

/-- The `$push` bucket: the `push_conversions` fragments in declaration
order. -/
def buildPushDoc (fields : List FieldDesc) (b : Builder) : Except String Doc :=
  foldConv (convStep b.pushSlots pushWrap hasPush) [] fields

/-- The `$pull` bucket: the `pull_conversions` fragments in declaration
order. -/
def buildPullDoc (fields : List FieldDesc) (b : Builder) : Except String Doc :=
  foldConv (convStep b.pullSlots pullWrap hasPull) [] fields

/-- The final assembly of the generated `build`: each bucket is inserted into
the fresh update document only when non-empty. -/
def assemble (sd pd ld : Doc) : Doc :=
  let u0 : Doc := []
  let u1 := if sd.isEmpty then u0 else docInsert u0 "$set" (Bson.document sd)
  let u2 := if pd.isEmpty then u1 else docInsert u1 "$push" (Bson.document pd)
  if ld.isEmpty then u2 else docInsert u2 "$pull" (Bson.document ld)

/-- Embedding of the generated `build()`: run the set conversions (named
fields then path updates), the push conversions, and the pull conversions,
aborting on the first serialization failure, then assemble the non-empty
buckets into the update document. -/
def build (fields : List FieldDesc) (b : Builder) : Except String Doc :=
  match buildSetDoc fields b with
  | .error e => .error e
  | .ok sd =>
    match buildPushDoc fields b with
    | .error e => .error e
    | .ok pd =>
      match buildPullDoc fields b with
      | .error e => .error e
      | .ok ld => .ok (assemble sd pd ld)

/-- The inner copying loop of the generated `with_<field>` method: every
(key, value) pair of the nested `$set` sub-document is inserted into the
parent's `path_updates` under the dotted key `<field>.<key>`. -/
def insertPrefixed (field_name : String) : Doc → Doc → Doc
  | pu, [] => pu
  | pu, (nk, nv) :: rest =>
    insertPrefixed field_name (docInsert pu (field_name ++ "." ++ nk) nv) rest

/-- The outer loop of the generated `with_<field>` method: walk the nested
build result's entries; for an entry keyed `"$set"` holding a document, copy
its pairs with the dotted prefix; every other entry (in particular `$push`
and `$pull`) is skipped. -/
def absorbNested (field_name : String) : Doc → Doc → Doc
  | pu, [] => pu
  | pu, (key, value) :: rest =>
    if key = "$set" then
      match value with
      | Bson.document set_doc =>
        absorbNested field_name (insertPrefixed field_name pu set_doc) rest
      | _ => absorbNested field_name pu rest
    else absorbNested field_name pu rest

/-- Embedding of the generated `with_<field>(f)` method of
`mongo_nested_fields`: build a fresh nested builder, run the configurator on
it, call the configured builder's `build`; on success absorb the `$set`
bucket into the parent's `path_updates` with the dotted prefix, on failure
(`if let Ok(doc) = ...`) leave the parent untouched. -/
def with_method (nestedFields : List FieldDesc) (field_name : String)
    (f : Builder → Builder) (b : Builder) : Builder :=
  let builder := update_builder
  let updated_builder := f builder
  match build nestedFields updated_builder with
  | .ok doc =>
    Builder.mk b.setSlots b.pushSlots b.pullSlots
      (absorbNested field_name b.path_updates doc)
  | .error _ => b

/-- Embedding of the generated direct-path method `<field>(nested_field,
value)` of `mongo_nested_fields`: serialize the value and insert it into the
parent's `path_updates` under `<field>.<nested_field>`; a serialization
failure is returned to the caller.  The nested type's own builder is never
consulted (the definition does not depend on the nested field list). -/
def nested_direct (field_name : String) (b : Builder) (nested_field : String)
    (v : Value) : Except String Builder :=
  match to_bson v with
  | .ok bv => .ok (Builder.mk b.setSlots b.pushSlots b.pullSlots
      (docInsert b.path_updates (field_name ++ "." ++ nested_field) bv))
  | .error e => .error e

/-- The (operation kind, field name) pairs for which the derive macro emits a
builder storage slot and, in lockstep in the same branch, the correspondingly
named chainable method (`<kind>_<name>` for both the `Option` field and the
method). -/
def generatedFieldItems (fields : List FieldDesc) : List (String × String) :=
  (fields.map (fun d =>
    (if hasPush d then [("push", d.name)] else []) ++
    (if hasPull d then [("pull", d.name)] else []) ++
    (if hasSet d then [("set", d.name)] else []))).flatten

/-- The `Address` struct of the spec's worked example: one field `city`
annotated `set`. -/
def addressFields : List FieldDesc :=
  [FieldDesc.mk "city" ["set"] false]

/-- The parent struct of the spec's worked example: `name` (set), `tags`
(set+push+pull, a `Vec<String>`), `secret` (none), and the nested field
`addr` (no `mongo_ops` attribute). -/
def userFields : List FieldDesc :=
  [FieldDesc.mk "name" ["set"] false,
   FieldDesc.mk "tags" ["set", "push", "pull"] true,
   FieldDesc.mk "secret" ["none"] false,
   FieldDesc.mk "addr" [] false]

/-- The builder chain of the worked example: `set_name("A")`,
`push_tags("x")`, `pull_tags("y")`, `with_addr(|b| b.set_city("NYC"))`. -/
def exampleBuilder : Builder :=
  with_method addressFields "addr"
    (fun nb => setMethod addressFields "city" (Value.good (Bson.str "NYC")) nb)
    (pullMethod userFields "tags" (Value.good (Bson.str "y"))
      (pushMethod userFields "tags" (Value.good (Bson.str "x"))
        (setMethod userFields "name" (Value.good (Bson.str "A")) update_builder)))

/-- C1: the worked example's `build()` produces exactly the document
with `$set` holding `name` and `addr.city`, `$push` holding
`tags: { $each: ["x"] }`, `$pull` holding `tags: { $in: ["y"] }`, and no
entry for the `none`-annotated field `secret` anywhere. -/
theorem c1_example_document :
    build userFields exampleBuilder =
      .ok [("$set", Bson.document [("name", Bson.str "A"), ("addr.city", Bson.str "NYC")]),
           ("$push", Bson.document [("tags", Bson.document [("$each", Bson.arr [Bson.str "x"])])]),
           ("$pull", Bson.document [("tags", Bson.document [("$in", Bson.arr [Bson.str "y"])])])] := by
  rfl

/-- Replacing a slot binding twice for the same key keeps only the last
value. -/
theorem slotInsert_slotInsert (l : List (String × Value)) (k : String) (v1 v2 : Value) :
    slotInsert (slotInsert l k v1) k v2 = slotInsert l k v2 := by
  induction l with
  | nil => simp [slotInsert]
  | cons p rest ih =>
    obtain ⟨k2, w⟩ := p
    by_cases h : k2 = k
    · subst h
      simp [slotInsert]
    · simp [slotInsert, h, ih]

/-- Looking up the key just inserted yields the inserted value. -/
theorem docGet_docInsert_self (d : Doc) (k : String) (v : Bson) :
    docGet (docInsert d k v) k = some v := by
  induction d with
  | nil => simp [docInsert, docGet]
  | cons p rest ih =>
    obtain ⟨k2, v2⟩ := p
    by_cases h : k2 = k
    · subst h
      simp [docInsert, docGet]
    · simp [docInsert, docGet, h, ih]

/-- Inserting under one key leaves lookups of other keys unchanged. -/
theorem docGet_docInsert_ne (d : Doc) (k k2 : String) (v : Bson) (h : k2 ≠ k) :
    docGet (docInsert d k2 v) k = docGet d k := by
  induction d with
  | nil => simp [docInsert, docGet, h]
  | cons p rest ih =>
    obtain ⟨k3, v3⟩ := p
    by_cases h3 : k3 = k2
    · subst h3
      simp [docInsert, docGet, h]
    · by_cases h4 : k3 = k
      · subst h4
        simp [docInsert, docGet, h3]
      · simp [docInsert, docGet, h3, h4, ih]

/-- The keys of a document with a leading pair. -/
theorem docKeys_cons (k : String) (v : Bson) (d : Doc) :
    docKeys ((k, v) :: d) = k :: docKeys d := rfl

/-- A key of an insertion result is the inserted key or a key of the original
document. -/
theorem mem_docKeys_docInsert (d : Doc) (k k2 : String) (v : Bson)
    (h : k ∈ docKeys (docInsert d k2 v)) : k = k2 ∨ k ∈ docKeys d := by
  induction d with
  | nil =>
    rcases List.mem_cons.mp h with h | h
    · exact Or.inl h
    · cases h
  | cons p rest ih =>
    obtain ⟨k3, v3⟩ := p
    by_cases h3 : k3 = k2
    · rw [docInsert, if_pos h3, docKeys_cons] at h
      rcases List.mem_cons.mp h with h | h
      · exact Or.inl h
      · exact Or.inr (by rw [docKeys_cons]; exact List.mem_cons_of_mem _ h)
    · rw [docInsert, if_neg h3, docKeys_cons] at h
      rcases List.mem_cons.mp h with h | h
      · subst h
        exact Or.inr (by rw [docKeys_cons]; exact List.mem_cons_self _ _)
      · rcases ih h with h | h
        · exact Or.inl h
        · exact Or.inr (by rw [docKeys_cons]; exact List.mem_cons_of_mem _ h)

/-- A key of a bulk-insertion result comes from the accumulator or from the
inserted list. -/
theorem mem_docKeys_docInsertAll : ∀ (l acc : Doc) (k : String),
    k ∈ docKeys (docInsertAll acc l) → k ∈ docKeys acc ∨ k ∈ docKeys l := by
  intro l
  induction l with
  | nil => intro acc k h; exact Or.inl h
  | cons p rest ih =>
    intro acc k h
    obtain ⟨k2, v2⟩ := p
    rw [docInsertAll] at h
    rcases ih (docInsert acc k2 v2) k h with h2 | h2
    · rcases mem_docKeys_docInsert acc k k2 v2 h2 with h3 | h3
      · subst h3
        exact Or.inr (by rw [docKeys_cons]; exact List.mem_cons_self _ _)
      · exact Or.inl h3
    · exact Or.inr (by rw [docKeys_cons]; exact List.mem_cons_of_mem _ h2)

/-- Bulk insertion of a list not containing a key does not affect that key's
lookup. -/
theorem docGet_docInsertAll_not_mem : ∀ (l acc : Doc) (k : String),
    k ∉ docKeys l → docGet (docInsertAll acc l) k = docGet acc k := by
  intro l
  induction l with
  | nil => intro acc k _; rfl
  | cons p rest ih =>
    intro acc k h
    obtain ⟨k2, v2⟩ := p
    rw [docKeys_cons] at h
    have h1 : k2 ≠ k := fun he => h (he ▸ List.mem_cons_self _ _)
    have h2 : k ∉ docKeys rest := fun hm => h (List.mem_cons_of_mem _ hm)
    rw [docInsertAll, ih (docInsert acc k2 v2) k h2]
    exact docGet_docInsert_ne acc k k2 v2 h1

/-- Bulk insertion of a duplicate-free list makes every one of its bindings
visible in the result. -/
theorem docGet_docInsertAll_of_nodup : ∀ (l acc : Doc) (k : String) (v : Bson),
    (docKeys l).Nodup → docGet l k = some v →
    docGet (docInsertAll acc l) k = some v := by
  intro l
  induction l with
  | nil => intro acc k v _ hv; cases hv
  | cons p rest ih =>
    intro acc k v hnd hv
    obtain ⟨k2, v2⟩ := p
    rw [docKeys_cons, List.nodup_cons] at hnd
    by_cases h : k2 = k
    · subst h
      rw [docGet, if_pos rfl] at hv
      injection hv with hv
      rw [docInsertAll, docGet_docInsertAll_not_mem rest (docInsert acc k2 v2) k2 hnd.1,
        ← hv]
      exact docGet_docInsert_self acc k2 v2
    · rw [docGet, if_neg h] at hv
      rw [docInsertAll]
      exact ih (docInsert acc k2 v2) k v hnd.2 hv

/-- C10: calling the generated `set_<field>` method twice for the same field
overwrites the first queued value: the builder state, and hence the `build`
result, is the same as after the second call alone. -/
theorem c10_set_overwrite (fields : List FieldDesc) (f : String) (v1 v2 : Value) (b : Builder) :
    setMethod fields f v2 (setMethod fields f v1 b) = setMethod fields f v2 b ∧
    build fields (setMethod fields f v2 (setMethod fields f v1 b)) =
      build fields (setMethod fields f v2 b) := by
  have h : setMethod fields f v2 (setMethod fields f v1 b) = setMethod fields f v2 b := by
    unfold setMethod
    by_cases he : setEligible fields f = true
    · simp [he, slotInsert_slotInsert]
    · simp [he]
  exact ⟨h, by rw [h]⟩

/-- Decomposition of a successful `build`: all three bucket computations
succeeded and the result is their assembly. -/
theorem build_shape (fields : List FieldDesc) (b : Builder) (u : Doc)
    (h : build fields b = .ok u) :
    ∃ sd pd ld, buildSetDoc fields b = .ok sd ∧ buildPushDoc fields b = .ok pd ∧
      buildPullDoc fields b = .ok ld ∧ u = assemble sd pd ld := by
  unfold build at h
  cases h1 : buildSetDoc fields b with
  | error e => simp only [h1] at h; exact Except.noConfusion h
  | ok sd =>
    simp only [h1] at h
    cases h2 : buildPushDoc fields b with
    | error e => simp only [h2] at h; exact Except.noConfusion h
    | ok pd =>
      simp only [h2] at h
      cases h3 : buildPullDoc fields b with
      | error e => simp only [h3] at h; exact Except.noConfusion h
      | ok ld =>
        simp only [h3, Except.ok.injEq] at h
        exact ⟨sd, pd, ld, rfl, rfl, rfl, h.symm⟩

/-- The assembled document holds the `$set` bucket exactly when it is
non-empty. -/
theorem docGet_assemble_set (sd pd ld : Doc) :
    docGet (assemble sd pd ld) "$set" =
      if sd.isEmpty then none else some (Bson.document sd) := by
  cases sd <;> cases pd <;> cases ld <;> rfl

/-- The assembled document holds the `$push` bucket exactly when it is
non-empty. -/
theorem docGet_assemble_push (sd pd ld : Doc) :
    docGet (assemble sd pd ld) "$push" =
      if pd.isEmpty then none else some (Bson.document pd) := by
  cases sd <;> cases pd <;> cases ld <;> rfl

/-- The assembled document holds the `$pull` bucket exactly when it is
non-empty. -/
theorem docGet_assemble_pull (sd pd ld : Doc) :
    docGet (assemble sd pd ld) "$pull" =
      if ld.isEmpty then none else some (Bson.document ld) := by
  cases sd <;> cases pd <;> cases ld <;> rfl

/-- The `$set` bucket of a build outcome: its sub-document on success when
present, and the empty document on a build failure or an absent bucket. -/
def setBucketOf (r : Except String Doc) : Doc :=
  match r with
  | .ok d =>
    match docGet d "$set" with
    | some (Bson.document sd) => sd
    | _ => []
  | .error _ => []

/-- Unfolding of `with_method` with its let-bindings reduced. -/
theorem with_method_unfold (nestedFields : List FieldDesc) (field_name : String)
    (f : Builder → Builder) (b : Builder) :
    with_method nestedFields field_name f b =
      match build nestedFields (f update_builder) with
      | .ok doc => Builder.mk b.setSlots b.pushSlots b.pullSlots
          (absorbNested field_name b.path_updates doc)
      | .error _ => b := rfl

/-- Characterization of the generated `with_<field>` method: the parent's
slots are untouched and its `path_updates` table is extended by exactly the
`$set` bucket of the configured nested builder's `build` outcome, each key
prefixed with `<field>.`; the nested `$push` and `$pull` buckets and a nested
build failure contribute nothing. -/
theorem with_method_eq (nestedFields : List FieldDesc) (field_name : String)
    (f : Builder → Builder) (b : Builder) :
    with_method nestedFields field_name f b =
      Builder.mk b.setSlots b.pushSlots b.pullSlots
        (insertPrefixed field_name b.path_updates
          (setBucketOf (build nestedFields (f update_builder)))) := by
  rw [with_method_unfold]
  cases hb : build nestedFields (f update_builder) with
  | error e => rfl
  | ok u =>
    obtain ⟨sd, pd, ld, _, _, _, hu⟩ := build_shape nestedFields (f update_builder) u hb
    subst hu
    cases sd <;> cases pd <;> cases ld <;> rfl

/-- C2: the generated `with_<field>(configurator)` method hands the
configurator a fresh nested builder built from the nested type's default,
builds the configured nested builder, and copies only the (key, value) pairs
of the nested result's `$set` bucket into the parent's `path_updates` table
under keys `<field>.<key>`; the parent's typed slots are unchanged and any
nested `$push` or `$pull` content is discarded, so it can appear nowhere in
the parent's final document. -/
theorem c2_with_method_propagates_only_set (nestedFields : List FieldDesc)
    (field_name : String) (f : Builder → Builder) (b : Builder) :
    with_method nestedFields field_name f b =
      Builder.mk b.setSlots b.pushSlots b.pullSlots
        (insertPrefixed field_name b.path_updates
          (setBucketOf (build nestedFields (f update_builder)))) :=
  with_method_eq nestedFields field_name f b

/-- C6: when the nested builder's `build` fails inside `with_<field>`, the
parent builder is returned unchanged: the error is swallowed and no
path-update entries for the nested field are added. -/
theorem c6_nested_build_failure_swallowed (nestedFields : List FieldDesc)
    (field_name : String) (f : Builder → Builder) (b : Builder) (e : String)
    (h : build nestedFields (f update_builder) = .error e) :
    with_method nestedFields field_name f b = b := by
  rw [with_method_unfold, h]

/-- Witness for C6: configuring the nested `city` field with a value whose
serialization fails makes the nested `build` fail, and the parent builder
comes back untouched. -/
theorem c6_witness :
    with_method addressFields "addr"
      (fun nb => setMethod addressFields "city" (Value.bad "boom") nb)
      update_builder = update_builder :=
  c6_nested_build_failure_swallowed addressFields "addr"
    (fun nb => setMethod addressFields "city" (Value.bad "boom") nb)
    update_builder "boom" rfl

/-- C8: the generated direct-path method `<field>(nested_path, value)`
serializes the value and inserts it into the parent's `path_updates` table
under `<field>.<nested_path>` — without consulting the nested type's builder
or validating the path — and fails exactly when serialization fails, in
which case no builder is returned. -/
theorem c8_direct_path (field_name : String) (b : Builder) (nested_field : String)
    (v : Value) :
    (∀ bv, to_bson v = .ok bv →
      nested_direct field_name b nested_field v =
        .ok (Builder.mk b.setSlots b.pushSlots b.pullSlots
          (docInsert b.path_updates (field_name ++ "." ++ nested_field) bv))) ∧
    (∀ e, to_bson v = .error e →
      nested_direct field_name b nested_field v = .error e) := by
  constructor
  · intro bv hv
    unfold nested_direct
    rw [hv]
  · intro e hv
    unfold nested_direct
    rw [hv]

/-- Witness for C8: a serializable value lands in `path_updates` under the
dotted path, and a failing value surfaces the serialization error. -/
theorem c8_witness :
    nested_direct "addr" update_builder "zip" (Value.good (Bson.str "10001")) =
      .ok (Builder.mk [] [] [] [("addr.zip", Bson.str "10001")]) ∧
    nested_direct "addr" update_builder "zip" (Value.bad "nope") = .error "nope" :=
  ⟨(c8_direct_path "addr" update_builder "zip" (Value.good (Bson.str "10001"))).1
      (Bson.str "10001") rfl,
   (c8_direct_path "addr" update_builder "zip" (Value.bad "nope")).2 "nope" rfl⟩

/-- A conversion fragment for an ineligible field is a no-op. -/
theorem convStep_not_elig (slots : List (String × Value)) (wrap : Bson → Bson)
    (elig : FieldDesc → Bool) (acc : Doc) (d : FieldDesc) (he : ¬ elig d = true) :
    convStep slots wrap elig acc d = .ok acc := by
  unfold convStep
  rw [if_neg he]

/-- A conversion fragment for an eligible field with an unpopulated slot is a
no-op. -/
theorem convStep_slot_none (slots : List (String × Value)) (wrap : Bson → Bson)
    (elig : FieldDesc → Bool) (acc : Doc) (d : FieldDesc) (he : elig d = true)
    (hg : slotGet slots d.name = none) :
    convStep slots wrap elig acc d = .ok acc := by
  unfold convStep
  rw [if_pos he, hg]

/-- A conversion fragment for an eligible field whose queued value serializes
inserts the wrapped serialization under the field name. -/
theorem convStep_slot_ok (slots : List (String × Value)) (wrap : Bson → Bson)
    (elig : FieldDesc → Bool) (acc : Doc) (d : FieldDesc) (v : Value) (bv : Bson)
    (he : elig d = true) (hg : slotGet slots d.name = some v)
    (hb : to_bson v = .ok bv) :
    convStep slots wrap elig acc d = .ok (docInsert acc d.name (wrap bv)) := by
  unfold convStep
  rw [if_pos he, hg]
  show serializeInto acc d.name wrap v = _
  unfold serializeInto
  rw [hb]

/-- A conversion fragment for an eligible field whose queued value fails to
serialize propagates the serialization error. -/
theorem convStep_slot_error (slots : List (String × Value)) (wrap : Bson → Bson)
    (elig : FieldDesc → Bool) (acc : Doc) (d : FieldDesc) (v : Value) (e : String)
    (he : elig d = true) (hg : slotGet slots d.name = some v)
    (hb : to_bson v = .error e) :
    convStep slots wrap elig acc d = .error e := by
  unfold convStep
  rw [if_pos he, hg]
  show serializeInto acc d.name wrap v = _
  unfold serializeInto
  rw [hb]

/-- With no populated slot, every conversion fragment is a no-op. -/
theorem foldConv_convStep_nil_slots (wrap : Bson → Bson) (elig : FieldDesc → Bool) :
    ∀ (fields : List FieldDesc) (acc : Doc),
    foldConv (convStep [] wrap elig) acc fields = .ok acc := by
  intro fields
  induction fields with
  | nil => intro acc; rfl
  | cons d rest ih =>
    intro acc
    rw [foldConv]
    have hs : convStep [] wrap elig acc d = .ok acc := by
      unfold convStep
      split
      · rfl
      · rfl
    rw [hs]
    exact ih acc

/-- Conversion fragments of fields whose name is not the single populated
slot's key are no-ops. -/
theorem foldConv_convStep_absent (f : String) (v : Value) (wrap : Bson → Bson)
    (elig : FieldDesc → Bool) :
    ∀ (fields : List FieldDesc) (acc : Doc),
    (∀ d ∈ fields, d.name ≠ f) →
    foldConv (convStep [(f, v)] wrap elig) acc fields = .ok acc := by
  intro fields
  induction fields with
  | nil => intro acc _; rfl
  | cons d rest ih =>
    intro acc h
    rw [foldConv]
    have hne : f ≠ d.name := fun he => h d (List.mem_cons_self _ _) he.symm
    have hs : convStep [(f, v)] wrap elig acc d = .ok acc := by
      unfold convStep
      rw [slotGet, if_neg hne]
      split
      · rfl
      · rfl
    rw [hs]
    exact ih acc (fun d2 hd2 => h d2 (List.mem_cons_of_mem _ hd2))

/-- Under distinct field names, running all conversion fragments with exactly
one slot populated — that of an eligible field — inserts exactly that field's
serialized, wrapped value. -/
theorem foldConv_convStep_single (wrap : Bson → Bson) (elig : FieldDesc → Bool)
    (d : FieldDesc) (v : Value) (bv : Bson) :
    ∀ (fields : List FieldDesc) (acc : Doc),
    (fields.map FieldDesc.name).Nodup → d ∈ fields → elig d = true →
    to_bson v = .ok bv →
    foldConv (convStep [(d.name, v)] wrap elig) acc fields =
      .ok (docInsert acc d.name (wrap bv)) := by
  intro fields
  induction fields with
  | nil => intro acc _ hd; cases hd
  | cons d0 rest ih =>
    intro acc hnd hd he hv
    rw [List.map_cons, List.nodup_cons] at hnd
    rcases List.mem_cons.mp hd with rfl | hd2
    · rw [foldConv]
      have hs : convStep [(d.name, v)] wrap elig acc d =
          .ok (docInsert acc d.name (wrap bv)) :=
        convStep_slot_ok [(d.name, v)] wrap elig acc d v bv he
          (by rw [slotGet, if_pos rfl]) hv
      rw [hs]
      exact foldConv_convStep_absent d.name v wrap elig rest
        (docInsert acc d.name (wrap bv))
        (fun d2 hd2 hne => hnd.1 (hne ▸ List.mem_map_of_mem FieldDesc.name hd2))
    · rw [foldConv]
      have hne : d.name ≠ d0.name :=
        fun he2 => hnd.1 (he2 ▸ List.mem_map_of_mem FieldDesc.name hd2)
      have hs : convStep [(d.name, v)] wrap elig acc d0 = .ok acc := by
        unfold convStep
        rw [slotGet, if_neg hne]
        split
        · rfl
        · rfl
      rw [hs]
      exact ih acc hnd.2 hd2 he hv

/-- If running the conversion fragments succeeds, every queued value of an
eligible field serialized successfully. -/
theorem foldConv_ok_serializes (slots : List (String × Value)) (wrap : Bson → Bson)
    (elig : FieldDesc → Bool) :
    ∀ (fields : List FieldDesc) (acc doc : Doc),
    foldConv (convStep slots wrap elig) acc fields = .ok doc →
    ∀ d ∈ fields, elig d = true → ∀ v, slotGet slots d.name = some v →
    ∃ bv, to_bson v = .ok bv := by
  intro fields
  induction fields with
  | nil => intro acc doc _ d hd; cases hd
  | cons d0 rest ih =>
    intro acc doc h d hd he v hv
    rw [foldConv] at h
    rcases List.mem_cons.mp hd with rfl | hd2
    · cases hb : to_bson v with
      | ok bv => exact ⟨bv, rfl⟩
      | error e =>
        rw [convStep_slot_error slots wrap elig acc d v e he hv hb] at h
        exact Except.noConfusion h
    · cases hs : convStep slots wrap elig acc d0 with
      | error e => rw [hs] at h; exact Except.noConfusion h
      | ok acc2 =>
        rw [hs] at h
        have h2 : foldConv (convStep slots wrap elig) acc2 rest = .ok doc := h
        exact ih acc2 doc h2 d hd2 he v hv

/-- Every successful conversion run only adds keys of eligible fields. -/
theorem foldConv_keys (slots : List (String × Value)) (wrap : Bson → Bson)
    (elig : FieldDesc → Bool) :
    ∀ (fields : List FieldDesc) (acc doc : Doc),
    foldConv (convStep slots wrap elig) acc fields = .ok doc →
    ∀ k, k ∈ docKeys doc →
    k ∈ docKeys acc ∨ ∃ d ∈ fields, elig d = true ∧ k = d.name := by
  intro fields
  induction fields with
  | nil =>
    intro acc doc h k hk
    rw [foldConv] at h
    injection h with h
    subst h
    exact Or.inl hk
  | cons d0 rest ih =>
    intro acc doc h k hk
    rw [foldConv] at h
    by_cases he : elig d0 = true
    · cases hg : slotGet slots d0.name with
      | none =>
        rw [convStep_slot_none slots wrap elig acc d0 he hg] at h
        have h2 : foldConv (convStep slots wrap elig) acc rest = .ok doc := h
        rcases ih acc doc h2 k hk with h3 | ⟨d, hd, he2, hkd⟩
        · exact Or.inl h3
        · exact Or.inr ⟨d, List.mem_cons_of_mem _ hd, he2, hkd⟩
      | some v =>
        cases hb : to_bson v with
        | error e =>
          rw [convStep_slot_error slots wrap elig acc d0 v e he hg hb] at h
          exact Except.noConfusion h
        | ok bv =>
          rw [convStep_slot_ok slots wrap elig acc d0 v bv he hg hb] at h
          have h2 : foldConv (convStep slots wrap elig)
              (docInsert acc d0.name (wrap bv)) rest = .ok doc := h
          rcases ih _ doc h2 k hk with h3 | ⟨d, hd, he2, hkd⟩
          · rcases mem_docKeys_docInsert acc k d0.name (wrap bv) h3 with h4 | h4
            · exact Or.inr ⟨d0, List.mem_cons_self _ _, he, h4⟩
            · exact Or.inl h4
          · exact Or.inr ⟨d, List.mem_cons_of_mem _ hd, he2, hkd⟩
    · rw [convStep_not_elig slots wrap elig acc d0 he] at h
      have h2 : foldConv (convStep slots wrap elig) acc rest = .ok doc := h
      rcases ih acc doc h2 k hk with h3 | ⟨d, hd, he2, hkd⟩
      · exact Or.inl h3
      · exact Or.inr ⟨d, List.mem_cons_of_mem _ hd, he2, hkd⟩

/-- A field of the struct with `hasSet` makes the generated `set_<field>`
method exist. -/
theorem setEligible_of_mem (fields : List FieldDesc) (d : FieldDesc)
    (hd : d ∈ fields) (hs : hasSet d = true) : setEligible fields d.name = true := by
  unfold setEligible
  rw [List.any_eq_true]
  exact ⟨d, hd, by rw [Bool.and_eq_true, beq_iff_eq]; exact ⟨rfl, hs⟩⟩

/-- A field of the struct with `hasPush` makes the generated `push_<field>`
method exist. -/
theorem pushEligible_of_mem (fields : List FieldDesc) (d : FieldDesc)
    (hd : d ∈ fields) (hs : hasPush d = true) : pushEligible fields d.name = true := by
  unfold pushEligible
  rw [List.any_eq_true]
  exact ⟨d, hd, by rw [Bool.and_eq_true, beq_iff_eq]; exact ⟨rfl, hs⟩⟩

/-- C4: for a `Vec`-shaped field with `push` requested, `push_<field>(v)`
then `build()` on a fresh builder yields a `$push` bucket holding exactly
`field: { $each: [serialize(v)] }` with a single queued element; and a second
`push_<field>` call overwrites the first — the builder after pushing v1 then
v2 is the builder after pushing v2 alone. -/
theorem c4_push_single_and_overwrite (fields : List FieldDesc) (d : FieldDesc)
    (v v1 v2 : Value) (bv : Bson) (b : Builder)
    (hnd : (fields.map FieldDesc.name).Nodup) (hd : d ∈ fields)
    (hp : hasPush d = true) (hv : to_bson v = .ok bv) :
    build fields (pushMethod fields d.name v update_builder) =
      .ok [("$push", Bson.document [(d.name, pushWrap bv)])] ∧
    pushMethod fields d.name v2 (pushMethod fields d.name v1 b) =
      pushMethod fields d.name v2 b := by
  have hel : pushEligible fields d.name = true := pushEligible_of_mem fields d hd hp
  constructor
  · have hbuilder : pushMethod fields d.name v update_builder =
        Builder.mk [] [(d.name, v)] [] [] := by
      unfold pushMethod update_builder
      rw [hel, if_pos rfl]
      rfl
    rw [hbuilder]
    have h1 : buildSetDoc fields (Builder.mk [] [(d.name, v)] [] []) = .ok [] := by
      unfold buildSetDoc buildSetNamed
      rw [foldConv_convStep_nil_slots]
      rfl
    have h2 : buildPushDoc fields (Builder.mk [] [(d.name, v)] [] []) =
        .ok [(d.name, pushWrap bv)] := by
      unfold buildPushDoc
      exact foldConv_convStep_single pushWrap hasPush d v bv fields [] hnd hd hp hv
    have h3 : buildPullDoc fields (Builder.mk [] [(d.name, v)] [] []) = .ok [] := by
      unfold buildPullDoc
      rw [foldConv_convStep_nil_slots]
    unfold build
    rw [h1, h2, h3]
    rfl
  · unfold pushMethod
    rw [hel, if_pos rfl, if_pos rfl, if_pos rfl]
    simp [slotInsert_slotInsert]

/-- Witness for C4 at the worked example's `tags` field. -/
theorem c4_witness :
    build userFields (pushMethod userFields "tags" (Value.good (Bson.str "x")) update_builder) =
      .ok [("$push", Bson.document [("tags", pushWrap (Bson.str "x"))])] ∧
    pushMethod userFields "tags" (Value.good (Bson.str "w"))
        (pushMethod userFields "tags" (Value.good (Bson.str "z")) update_builder) =
      pushMethod userFields "tags" (Value.good (Bson.str "w")) update_builder :=
  c4_push_single_and_overwrite userFields (FieldDesc.mk "tags" ["set", "push", "pull"] true)
    (Value.good (Bson.str "x")) (Value.good (Bson.str "z")) (Value.good (Bson.str "w"))
    (Bson.str "x") update_builder (by decide) (by decide) (by decide) rfl

/-- A successful `buildSetDoc` decomposes into a successful named-fragment
run followed by the path-update insertion. -/
theorem buildSetDoc_shape (fields : List FieldDesc) (b : Builder) (sd : Doc)
    (h : buildSetDoc fields b = .ok sd) :
    ∃ named, buildSetNamed fields b = .ok named ∧
      sd = docInsertAll named b.path_updates := by
  unfold buildSetDoc at h
  cases hn : buildSetNamed fields b with
  | error e => rw [hn] at h; exact Except.noConfusion h
  | ok named =>
    rw [hn] at h
    injection h with h
    exact ⟨named, rfl, h.symm⟩

/-- C5: a successful `build` includes each of `$set`, `$push`, `$pull` in the
returned document exactly when that bucket is non-empty; and every queued
value of every eligible field serialized successfully — equivalently, if the
serialization of any individual queued value fails, `build` returns a
failure and no document at all. -/
theorem c5_buckets_and_abort (fields : List FieldDesc) (b : Builder) (u : Doc)
    (h : build fields b = .ok u) :
    (∃ sd pd ld, buildSetDoc fields b = .ok sd ∧ buildPushDoc fields b = .ok pd ∧
      buildPullDoc fields b = .ok ld ∧
      docGet u "$set" = (if sd.isEmpty then none else some (Bson.document sd)) ∧
      docGet u "$push" = (if pd.isEmpty then none else some (Bson.document pd)) ∧
      docGet u "$pull" = (if ld.isEmpty then none else some (Bson.document ld))) ∧
    (∀ d ∈ fields, ∀ v,
      (hasSet d = true → slotGet b.setSlots d.name = some v →
        ∃ bv, to_bson v = .ok bv) ∧
      (hasPush d = true → slotGet b.pushSlots d.name = some v →
        ∃ bv, to_bson v = .ok bv) ∧
      (hasPull d = true → slotGet b.pullSlots d.name = some v →
        ∃ bv, to_bson v = .ok bv)) := by
  obtain ⟨sd, pd, ld, h1, h2, h3, hu⟩ := build_shape fields b u h
  subst hu
  constructor
  · exact ⟨sd, pd, ld, h1, h2, h3, docGet_assemble_set sd pd ld,
      docGet_assemble_push sd pd ld, docGet_assemble_pull sd pd ld⟩
  · obtain ⟨named, hn, _⟩ := buildSetDoc_shape fields b sd h1
    unfold buildSetNamed at hn
    unfold buildPushDoc at h2
    unfold buildPullDoc at h3
    intro d hd v
    exact ⟨fun he hv =>
        foldConv_ok_serializes b.setSlots (fun bv => bv) hasSet fields [] named hn
          d hd he v hv,
      fun he hv =>
        foldConv_ok_serializes b.pushSlots pushWrap hasPush fields [] pd h2
          d hd he v hv,
      fun he hv =>
        foldConv_ok_serializes b.pullSlots pullWrap hasPull fields [] ld h3
          d hd he v hv⟩

/-- Witness for C5 at the worked example's builder: the built document holds
`$set`, `$push` and `$pull` (all three non-empty) and every queued value
serialized. -/
theorem c5_witness :
    (∃ sd pd ld, buildSetDoc userFields exampleBuilder = .ok sd ∧
      buildPushDoc userFields exampleBuilder = .ok pd ∧
      buildPullDoc userFields exampleBuilder = .ok ld ∧
      docGet [("$set", Bson.document [("name", Bson.str "A"), ("addr.city", Bson.str "NYC")]),
           ("$push", Bson.document [("tags", Bson.document [("$each", Bson.arr [Bson.str "x"])])]),
           ("$pull", Bson.document [("tags", Bson.document [("$in", Bson.arr [Bson.str "y"])])])]
          "$set" = (if sd.isEmpty then none else some (Bson.document sd)) ∧
      docGet [("$set", Bson.document [("name", Bson.str "A"), ("addr.city", Bson.str "NYC")]),
           ("$push", Bson.document [("tags", Bson.document [("$each", Bson.arr [Bson.str "x"])])]),
           ("$pull", Bson.document [("tags", Bson.document [("$in", Bson.arr [Bson.str "y"])])])]
          "$push" = (if pd.isEmpty then none else some (Bson.document pd)) ∧
      docGet [("$set", Bson.document [("name", Bson.str "A"), ("addr.city", Bson.str "NYC")]),
           ("$push", Bson.document [("tags", Bson.document [("$each", Bson.arr [Bson.str "x"])])]),
           ("$pull", Bson.document [("tags", Bson.document [("$in", Bson.arr [Bson.str "y"])])])]
          "$pull" = (if ld.isEmpty then none else some (Bson.document ld))) ∧
    (∀ d ∈ userFields, ∀ v,
      (hasSet d = true → slotGet exampleBuilder.setSlots d.name = some v →
        ∃ bv, to_bson v = .ok bv) ∧
      (hasPush d = true → slotGet exampleBuilder.pushSlots d.name = some v →
        ∃ bv, to_bson v = .ok bv) ∧
      (hasPull d = true → slotGet exampleBuilder.pullSlots d.name = some v →
        ∃ bv, to_bson v = .ok bv)) :=
  c5_buckets_and_abort userFields exampleBuilder
    [("$set", Bson.document [("name", Bson.str "A"), ("addr.city", Bson.str "NYC")]),
     ("$push", Bson.document [("tags", Bson.document [("$each", Bson.arr [Bson.str "x"])])]),
     ("$pull", Bson.document [("tags", Bson.document [("$in", Bson.arr [Bson.str "y"])])])]
    rfl

/-- C3: in the assembled `$set` bucket, the named-field fragments are
inserted first and every path-update entry afterwards, so any key present in
the path-update table ends up in the final `$set` bucket with the
path-update value, overwriting a named-field fragment under the same key. -/
theorem c3_path_updates_overwrite (fields : List FieldDesc) (b : Builder) (u : Doc)
    (k : String) (v : Bson)
    (hnd : (docKeys b.path_updates).Nodup)
    (hb : build fields b = .ok u)
    (hk : docGet b.path_updates k = some v) :
    ∃ sd, docGet u "$set" = some (Bson.document sd) ∧ docGet sd k = some v := by
  obtain ⟨sd, pd, ld, h1, _, _, hu⟩ := build_shape fields b u hb
  subst hu
  obtain ⟨named, _, hsd⟩ := buildSetDoc_shape fields b sd h1
  have hget : docGet sd k = some v := by
    rw [hsd]
    exact docGet_docInsertAll_of_nodup b.path_updates named k v hnd hk
  have hne : sd.isEmpty = false := by
    cases sd with
    | nil => exact Option.noConfusion hget
    | cons p rest => rfl
  refine ⟨sd, ?_, hget⟩
  rw [docGet_assemble_set, hne]
  rfl

/-- Witness for C3: a builder whose `name` slot holds "A" while the
path-update table maps "name" to "B" builds a `$set` bucket where "name" is
"B". -/
theorem c3_witness :
    ∃ sd, docGet [("$set", Bson.document [("name", Bson.str "B")])] "$set" =
        some (Bson.document sd) ∧ docGet sd "name" = some (Bson.str "B") :=
  c3_path_updates_overwrite userFields
    (Builder.mk [("name", Value.good (Bson.str "A"))] [] [] [("name", Bson.str "B")])
    [("$set", Bson.document [("name", Bson.str "B")])] "name" (Bson.str "B")
    (by decide) rfl rfl

/-- A field with a generated push slot is not `none`-annotated. -/
theorem hasNone_eq_false_of_hasPush (d : FieldDesc) (h : hasPush d = true) :
    hasNone d = false := by
  unfold hasPush at h
  simp only [Bool.and_eq_true, Bool.not_eq_true'] at h
  exact h.1.1

/-- A field with a generated pull slot is not `none`-annotated. -/
theorem hasNone_eq_false_of_hasPull (d : FieldDesc) (h : hasPull d = true) :
    hasNone d = false := by
  unfold hasPull at h
  simp only [Bool.and_eq_true, Bool.not_eq_true'] at h
  exact h.1.1

/-- A field with a generated set slot is not `none`-annotated. -/
theorem hasNone_eq_false_of_hasSet (d : FieldDesc) (h : hasSet d = true) :
    hasNone d = false := by
  unfold hasSet at h
  simp only [Bool.and_eq_true, Bool.not_eq_true'] at h
  exact h.1

/-- C7 counterexample: the claim says a `none`-annotated field's name never
appears under any bucket regardless of other calls, but the generic
`set_field` direct-path method accepts the bare field name as a path: on a
struct whose only field `secret` is `none`, `set_field("secret", v)` then
`build()` produces a `$set` bucket keyed by `secret`. -/
theorem c7_counterexample :
    (set_field update_builder "secret" (Value.good (Bson.str "v"))).bind
        (build [FieldDesc.mk "secret" ["none"] false]) =
      .ok [("$set", Bson.document [("secret", Bson.str "v")])] := rfl

/-- C7 (amended): for every field annotated `none`, the derive macro
generates no storage slot and no method for it, and — provided no
direct-path write put the bare field name into the path-update table — a
successful `build()` never includes that field's name as a key under `$set`,
`$push`, or `$pull`. -/
theorem c7_none_field_absent (fields : List FieldDesc) (b : Builder) (u : Doc)
    (fname : String)
    (hnone : ∀ d ∈ fields, d.name = fname → hasNone d = true)
    (hpath : fname ∉ docKeys b.path_updates)
    (hb : build fields b = .ok u) :
    (∀ k, (k, fname) ∉ generatedFieldItems fields) ∧
    (∀ sd2, docGet u "$set" = some (Bson.document sd2) → fname ∉ docKeys sd2) ∧
    (∀ pd2, docGet u "$push" = some (Bson.document pd2) → fname ∉ docKeys pd2) ∧
    (∀ ld2, docGet u "$pull" = some (Bson.document ld2) → fname ∉ docKeys ld2) := by
  have hnotelig : ∀ d ∈ fields, fname = d.name →
      hasPush d = false ∧ hasPull d = false ∧ hasSet d = false := by
    intro d hd hname
    have hn := hnone d hd hname.symm
    refine ⟨?_, ?_, ?_⟩
    · cases hp : hasPush d
      · rfl
      · rw [hasNone_eq_false_of_hasPush d hp] at hn
        exact Bool.noConfusion hn
    · cases hp : hasPull d
      · rfl
      · rw [hasNone_eq_false_of_hasPull d hp] at hn
        exact Bool.noConfusion hn
    · cases hp : hasSet d
      · rfl
      · rw [hasNone_eq_false_of_hasSet d hp] at hn
        exact Bool.noConfusion hn
  obtain ⟨sd, pd, ld, h1, h2, h3, hu⟩ := build_shape fields b u hb
  subst hu
  have hset_keys : fname ∉ docKeys sd := by
    intro hmem
    obtain ⟨named, hn, hsd⟩ := buildSetDoc_shape fields b sd h1
    rw [hsd] at hmem
    rcases mem_docKeys_docInsertAll b.path_updates named fname hmem with hm | hm
    · unfold buildSetNamed at hn
      rcases foldConv_keys b.setSlots (fun bv => bv) hasSet fields [] named hn
          fname hm with hm2 | ⟨d, hd, he, hkd⟩
      · cases hm2
      · rw [(hnotelig d hd hkd).2.2] at he
        exact Bool.noConfusion he
    · exact hpath hm
  have hpush_keys : fname ∉ docKeys pd := by
    intro hmem
    unfold buildPushDoc at h2
    rcases foldConv_keys b.pushSlots pushWrap hasPush fields [] pd h2
        fname hmem with hm2 | ⟨d, hd, he, hkd⟩
    · cases hm2
    · rw [(hnotelig d hd hkd).1] at he
      exact Bool.noConfusion he
  have hpull_keys : fname ∉ docKeys ld := by
    intro hmem
    unfold buildPullDoc at h3
    rcases foldConv_keys b.pullSlots pullWrap hasPull fields [] ld h3
        fname hmem with hm2 | ⟨d, hd, he, hkd⟩
    · cases hm2
    · rw [(hnotelig d hd hkd).2.1] at he
      exact Bool.noConfusion he
  refine ⟨?_, ?_, ?_, ?_⟩
  · intro k hk
    unfold generatedFieldItems at hk
    rw [List.mem_flatten] at hk
    obtain ⟨l, hl, hkl⟩ := hk
    rw [List.mem_map] at hl
    obtain ⟨d, hd, rfl⟩ := hl
    rcases List.mem_append.mp hkl with hmem12 | hmem
    · rcases List.mem_append.mp hmem12 with hmem | hmem
      · by_cases hp : hasPush d = true
        · rw [if_pos hp] at hmem
          rcases List.mem_singleton.mp hmem with hpair
          rw [Prod.mk.injEq] at hpair
          rw [(hnotelig d hd hpair.2).1] at hp
          exact Bool.noConfusion hp
        · rw [if_neg hp] at hmem
          cases hmem
      · by_cases hp : hasPull d = true
        · rw [if_pos hp] at hmem
          rcases List.mem_singleton.mp hmem with hpair
          rw [Prod.mk.injEq] at hpair
          rw [(hnotelig d hd hpair.2).2.1] at hp
          exact Bool.noConfusion hp
        · rw [if_neg hp] at hmem
          cases hmem
    · by_cases hp : hasSet d = true
      · rw [if_pos hp] at hmem
        rcases List.mem_singleton.mp hmem with hpair
        rw [Prod.mk.injEq] at hpair
        rw [(hnotelig d hd hpair.2).2.2] at hp
        exact Bool.noConfusion hp
      · rw [if_neg hp] at hmem
        cases hmem
  · intro sd2 hget
    rw [docGet_assemble_set] at hget
    by_cases hs : sd.isEmpty = true
    · rw [if_pos hs] at hget
      exact Option.noConfusion hget
    · rw [if_neg hs] at hget
      injection hget with hget
      injection hget with hget
      rw [← hget]
      exact hset_keys
  · intro pd2 hget
    rw [docGet_assemble_push] at hget
    by_cases hs : pd.isEmpty = true
    · rw [if_pos hs] at hget
      exact Option.noConfusion hget
    · rw [if_neg hs] at hget
      injection hget with hget
      injection hget with hget
      rw [← hget]
      exact hpush_keys
  · intro ld2 hget
    rw [docGet_assemble_pull] at hget
    by_cases hs : ld.isEmpty = true
    · rw [if_pos hs] at hget
      exact Option.noConfusion hget
    · rw [if_neg hs] at hget
      injection hget with hget
      injection hget with hget
      rw [← hget]
      exact hpull_keys

/-- Witness for the amended C7 at the worked example: `secret` is absent from
the generated items and from every bucket of a build that set `name`. -/
theorem c7_witness :
    (∀ k, (k, "secret") ∉ generatedFieldItems userFields) ∧
    (∀ sd2, docGet [("$set", Bson.document [("name", Bson.str "A")])] "$set" =
        some (Bson.document sd2) → "secret" ∉ docKeys sd2) ∧
    (∀ pd2, docGet [("$set", Bson.document [("name", Bson.str "A")])] "$push" =
        some (Bson.document pd2) → "secret" ∉ docKeys pd2) ∧
    (∀ ld2, docGet [("$set", Bson.document [("name", Bson.str "A")])] "$pull" =
        some (Bson.document ld2) → "secret" ∉ docKeys ld2) :=
  c7_none_field_absent userFields
    (Builder.mk [("name", Value.good (Bson.str "A"))] [] [] [])
    [("$set", Bson.document [("name", Bson.str "A")])] "secret"
    (by decide) (by decide) rfl

/-- Normalization replacing an absent `mongo_ops` annotation (an empty parsed
operation list) by an explicit `set`, the default the derive macro applies
via `ops.contains(&"set".to_string()) || ops.is_empty()`. -/
def defaultToSet (d : FieldDesc) : FieldDesc :=
  if d.ops.isEmpty then FieldDesc.mk d.name ["set"] d.isVec else d

/-- Normalization preserves the field name. -/
theorem name_defaultToSet (d : FieldDesc) : (defaultToSet d).name = d.name := by
  unfold defaultToSet
  split
  · rfl
  · rfl

/-- A list with `isEmpty` set is nil. -/
theorem ops_nil_of_isEmpty (l : List String) (h : l.isEmpty = true) : l = [] := by
  cases l
  · rfl
  · exact Bool.noConfusion h

/-- Normalization preserves the `none` eligibility test. -/
theorem hasNone_defaultToSet (d : FieldDesc) : hasNone (defaultToSet d) = hasNone d := by
  unfold defaultToSet
  by_cases h : d.ops.isEmpty = true
  · rw [if_pos h]
    unfold hasNone
    rw [ops_nil_of_isEmpty d.ops h]
    rfl
  · rw [if_neg h]

/-- Normalization preserves the set eligibility test. -/
theorem hasSet_defaultToSet (d : FieldDesc) : hasSet (defaultToSet d) = hasSet d := by
  unfold defaultToSet
  by_cases h : d.ops.isEmpty = true
  · rw [if_pos h]
    unfold hasSet hasNone
    rw [ops_nil_of_isEmpty d.ops h]
    rfl
  · rw [if_neg h]

/-- Normalization preserves the push eligibility test. -/
theorem hasPush_defaultToSet (d : FieldDesc) : hasPush (defaultToSet d) = hasPush d := by
  unfold defaultToSet
  by_cases h : d.ops.isEmpty = true
  · rw [if_pos h]
    unfold hasPush hasNone
    rw [ops_nil_of_isEmpty d.ops h]
    rfl
  · rw [if_neg h]

/-- Normalization preserves the pull eligibility test. -/
theorem hasPull_defaultToSet (d : FieldDesc) : hasPull (defaultToSet d) = hasPull d := by
  unfold defaultToSet
  by_cases h : d.ops.isEmpty = true
  · rw [if_pos h]
    unfold hasPull hasNone
    rw [ops_nil_of_isEmpty d.ops h]
    rfl
  · rw [if_neg h]

/-- Conversion fragments are invariant under the normalization, given an
eligibility test it preserves. -/
theorem convStep_defaultToSet (slots : List (String × Value)) (wrap : Bson → Bson)
    (elig : FieldDesc → Bool) (helig : ∀ d2, elig (defaultToSet d2) = elig d2)
    (acc : Doc) (d : FieldDesc) :
    convStep slots wrap elig acc (defaultToSet d) = convStep slots wrap elig acc d := by
  unfold convStep
  rw [helig d, name_defaultToSet]

/-- Conversion runs are invariant under a pointwise-invariant field map. -/
theorem foldConv_map (step : Doc → FieldDesc → Except String Doc)
    (g : FieldDesc → FieldDesc) (hstep : ∀ acc d, step acc (g d) = step acc d) :
    ∀ (fields : List FieldDesc) (acc : Doc),
    foldConv step acc (fields.map g) = foldConv step acc fields := by
  intro fields
  induction fields with
  | nil => intro acc; rfl
  | cons d rest ih =>
    intro acc
    rw [List.map_cons, foldConv, foldConv, hstep]
    cases step acc d with
    | ok acc2 => exact ih acc2
    | error e => rfl

/-- Building is invariant under normalizing absent annotations to `set`. -/
theorem build_defaultToSet (fields : List FieldDesc) (b : Builder) :
    build (fields.map defaultToSet) b = build fields b := by
  unfold build buildSetDoc buildSetNamed buildPushDoc buildPullDoc
  rw [foldConv_map _ defaultToSet
      (convStep_defaultToSet b.setSlots (fun bv => bv) hasSet hasSet_defaultToSet),
    foldConv_map _ defaultToSet
      (convStep_defaultToSet b.pushSlots pushWrap hasPush hasPush_defaultToSet),
    foldConv_map _ defaultToSet
      (convStep_defaultToSet b.pullSlots pullWrap hasPull hasPull_defaultToSet)]

/-- Set-method existence is invariant under the normalization. -/
theorem setEligible_defaultToSet (fields : List FieldDesc) (f : String) :
    setEligible (fields.map defaultToSet) f = setEligible fields f := by
  unfold setEligible
  rw [List.any_map]
  congr 1
  funext d
  simp only [Function.comp_apply, name_defaultToSet, hasSet_defaultToSet]

/-- The set method acts identically under the normalization. -/
theorem setMethod_defaultToSet (fields : List FieldDesc) (f : String) (v : Value)
    (b : Builder) :
    setMethod (fields.map defaultToSet) f v b = setMethod fields f v b := by
  unfold setMethod
  rw [setEligible_defaultToSet]

/-- Building a fresh builder after one `set_<field>` call on an eligible
field yields exactly a singleton `$set` bucket. -/
theorem build_fresh_set (fields : List FieldDesc) (d : FieldDesc) (v : Value) (bv : Bson)
    (hnd : (fields.map FieldDesc.name).Nodup) (hd : d ∈ fields)
    (hs : hasSet d = true) (hv : to_bson v = .ok bv) :
    build fields (setMethod fields d.name v update_builder) =
      .ok [("$set", Bson.document [(d.name, bv)])] := by
  have hel : setEligible fields d.name = true := setEligible_of_mem fields d hd hs
  have hbuilder : setMethod fields d.name v update_builder =
      Builder.mk [(d.name, v)] [] [] [] := by
    unfold setMethod update_builder
    rw [hel, if_pos rfl]
    rfl
  rw [hbuilder]
  have hn : buildSetNamed fields (Builder.mk [(d.name, v)] [] [] []) =
      .ok (docInsert [] d.name bv) :=
    foldConv_convStep_single (fun bv2 => bv2) hasSet d v bv fields [] hnd hd hs hv
  have h1 : buildSetDoc fields (Builder.mk [(d.name, v)] [] [] []) =
      .ok [(d.name, bv)] := by
    unfold buildSetDoc
    rw [hn]
    rfl
  have h2 : buildPushDoc fields (Builder.mk [(d.name, v)] [] [] []) = .ok [] :=
    foldConv_convStep_nil_slots pushWrap hasPush fields []
  have h3 : buildPullDoc fields (Builder.mk [(d.name, v)] [] [] []) = .ok [] :=
    foldConv_convStep_nil_slots pullWrap hasPull fields []
  unfold build
  rw [h1, h2, h3]
  rfl

/-- C9: a field with no operation annotation gets a `set_<field>` method
behaving identically to an explicit `set` annotation: it is set-eligible,
normalizing the empty annotation to `set` changes neither `build` nor the set
method, and a fresh builder with the value set builds to a `$set` bucket
holding its serialization under the plain field name. -/
theorem c9_default_is_set (fields : List FieldDesc) (b : Builder) (d : FieldDesc)
    (v : Value) (bv : Bson)
    (hops : d.ops = []) (hnd : (fields.map FieldDesc.name).Nodup)
    (hd : d ∈ fields) (hv : to_bson v = .ok bv) :
    hasSet d = true ∧
    build (fields.map defaultToSet) b = build fields b ∧
    setMethod (fields.map defaultToSet) d.name v b = setMethod fields d.name v b ∧
    build fields (setMethod fields d.name v update_builder) =
      .ok [("$set", Bson.document [(d.name, bv)])] := by
  have hset : hasSet d = true := by
    unfold hasSet hasNone
    rw [hops]
    rfl
  exact ⟨hset, build_defaultToSet fields b,
    setMethod_defaultToSet fields d.name v b,
    build_fresh_set fields d v bv hnd hd hset hv⟩

/-- Witness for C9 at the worked example's unannotated `addr` field. -/
theorem c9_witness :
    hasSet (FieldDesc.mk "addr" [] false) = true ∧
    build (userFields.map defaultToSet) update_builder =
      build userFields update_builder ∧
    setMethod (userFields.map defaultToSet) "addr" (Value.good (Bson.str "D"))
        update_builder =
      setMethod userFields "addr" (Value.good (Bson.str "D")) update_builder ∧
    build userFields
        (setMethod userFields "addr" (Value.good (Bson.str "D")) update_builder) =
      .ok [("$set", Bson.document [("addr", Bson.str "D")])] :=
  c9_default_is_set userFields update_builder (FieldDesc.mk "addr" [] false)
    (Value.good (Bson.str "D")) (Bson.str "D") rfl (by decide) (by decide) rfl

end MongoDerive
